import Mathlib

/-!
# EdDSA-Poseidon over Baby Jubjub — verification of the specification

Shallow embedding of `packages/eddsa-poseidon/src/eddsa-poseidon.ts`.
The file contains two near-duplicate variants of the module: an older one
(using the local `./babyjub`, `./field`, `./scalar`, `./utils` modules),
embedded below as namespace `V1`, and a newer one (using the external
`@zk-kit/baby-jubjub` and `@zk-kit/utils` packages), embedded as `V2`.

The curve library, the Blake-family hash, the Poseidon permutation and the
generic byte/bigint utilities are external collaborators (spec §1, §6) whose
sources are not part of the repository snapshot; they are modelled from the
spec: the curve as a record of operations together with the §6 contract, the
two hashes as function parameters, and the utilities as explicit byte-list
functions following the spec's §4.1/§4.3/§6 descriptions.
-/

namespace EddsaPoseidon

/-- The BN254 scalar-field modulus: the base field of Baby Jubjub, the field of
the Poseidon permutation, and the bound on normalized messages (spec §4.3). -/
def p : Nat := 21888242871839275222246405745257275088548364400416034343698204186575808495617

/-- The order of the subgroup generated by `Base8` (`subOrder` of the curve
library, spec glossary): the full Baby Jubjub order divided by the cofactor 8. -/
def so : Nat := 2736030358979909402780800718157159386076813972158567259200215660948447373041

/-- Byte buffers are lists of naturals; a valid byte is `< 256`. -/
abbrev Bytes := List Nat

/-- A point is a pair of field-element coordinates, as in the curve library's
`Point<bigint>` (decimal strings are transported to their numeric values). -/
abbrev Point := Nat × Nat

/-- A signature `{R8, S}`.  `S` is an `Int` because the source's `BigNumberish`
admits negative bigints, which `verifySignature`'s range guard must face. -/
structure Signature where
  R8 : Point
  S : Int
  deriving DecidableEq

/-- Modelled from the spec: the error kinds of §7 (the source throws; the
embedding returns them through `Except`). -/
inductive Err where
  | invalidPrivateKey
  | invalidMessage
  | invalidPublicKey
  | invalidType
  deriving DecidableEq

/-- Modelled from the spec (§4.1, §6): `utils.checkPrivateKey` normalizes a
supported private-key encoding to a 32-byte buffer and fails with
`InvalidPrivateKey` otherwise.  The embedding works on already-decoded byte
lists, so normalization is the identity on valid 32-byte buffers. -/
def checkPrivateKey (k : Bytes) : Except Err Bytes :=
  if k.length = 32 ∧ ∀ x ∈ k, x < 256 then .ok k else .error .invalidPrivateKey

/-- Modelled from the spec (§4.3): `utils.checkMessage` normalizes the message
to an integer strictly below the field modulus `p` and fails with
`InvalidMessage` otherwise. -/
def checkMessage (m : Nat) : Except Err Nat :=
  if m < p then .ok m else .error .invalidMessage

/-- Modelled from the spec (§6): little-endian byte buffer → integer
(`utils.leBuff2int` in V1, `leBufferToBigInt` of `@zk-kit/utils` in V2). -/
def leBufferToBigInt : Bytes → Nat
  | [] => 0
  | b :: t => b + 256 * leBufferToBigInt t

/-- Modelled from the spec (§4.3 step 2, §6): fixed-width little-endian
integer → byte buffer (`leBigIntToBuffer(value, 32)` in V2). -/
def leBigIntToBuffer (n w : Nat) : Bytes :=
  (List.range w).map fun i => n / 256 ^ i % 256

/-- Modelled from the spec (§4.3 step 2): V1's `utils.leInt2Buff` message
encoding — the same fixed-width 32-byte little-endian buffer. -/
def leInt2Buff (n : Nat) : Bytes := leBigIntToBuffer n 32

/-- Clear the lowest 3 bits of a byte (`buff[0] & 0xf8`). -/
def clearLow3 (x : Nat) : Nat := x / 8 * 8

/-- Clear the top bit and set the second-highest bit of a byte
(`(buff[31] & 0x7f) | 0x40`). -/
def pruneLast (x : Nat) : Nat := x % 64 + 64

/-- Modelled from the spec (§4.1): `utils.pruneBuffer` — RFC-8032-style
pruning of the 32-byte low half of the key digest: clear the lowest 3 bits of
the first byte, clear the top bit and set the second-highest bit of the last
byte. -/
def pruneBuffer (b : Bytes) : Bytes :=
  (b.set 0 (clearLow3 (b.getD 0 0))).set 31 (pruneLast (b.getD 31 0))

/-- Modelled from the spec (§6): `scalar.shiftRight` on non-negative bigints. -/
def shiftRight (n k : Nat) : Nat := n >>> k

/-- Modelled from the spec (§2): the field-element wrapper's normalization
`Fr.e` — reduction mod the field order. -/
def Fe (q a : Nat) : Nat := a % q

/-- Modelled from the spec (§2, §4.3 step 5): field addition mod the order. -/
def Fadd (q a b : Nat) : Nat := (a + b) % q

/-- Modelled from the spec (§2, §4.3 step 5): field multiplication mod the order. -/
def Fmul (q a b : Nat) : Nat := a * b % q

/-- Field equality of coordinates (`Fr.eq` over the base field in the source
verifiers): equality of the canonical representatives mod `p` (spec §4.4). -/
def Feq (a b : Nat) : Bool := a % p == b % p

/-- Modelled from the spec (§4.4): `utils.isPoint` — structural
well-formedness of a point representation.  Every value of the typed `Point`
is structurally well-formed, so the check is constantly `true`. -/
def isPoint (_ : Point) : Bool := true

/-- Modelled from the spec (§4.4): `utils.isSignature` — structural shape
check `{R8, S}` with both fields present and well-typed; constantly `true`
on the typed `Signature`. -/
def isSignature (_ : Signature) : Bool := true

/-- Modelled from the spec (§6): the curve library's surface used by the
module: point addition, scalar multiplication, subgroup membership, the
compressed codec, the base point `Base8` and the subgroup order. -/
structure Curve where
  addPoint : Point → Point → Point
  mulPointEscalar : Point → Int → Point
  inCurve : Point → Bool
  packPoint : Point → Nat
  unpackPoint : Nat → Option Point
  Base8 : Point
  subOrder : Nat

/-- Modelled from the spec (§6): the contract of the curve library.
`Base8` generates a cyclic subgroup of order `subOrder`; scalar
multiplication of its multiples is linear and factors through `subOrder`;
multiples of `Base8` are in-curve; the compressed codec inverts on in-curve
points. -/
structure Curve.Valid (c : Curve) : Prop where
  subOrder_pos : 0 < c.subOrder
  mul_base_add : ∀ a b : Int,
    c.mulPointEscalar c.Base8 (a + b) =
      c.addPoint (c.mulPointEscalar c.Base8 a) (c.mulPointEscalar c.Base8 b)
  mul_mul : ∀ k e : Int,
    c.mulPointEscalar (c.mulPointEscalar c.Base8 k) e =
      c.mulPointEscalar c.Base8 (k * e)
  mul_base_mod : ∀ a : Int,
    c.mulPointEscalar c.Base8 (a % (c.subOrder : Int)) = c.mulPointEscalar c.Base8 a
  inCurve_mul_base : ∀ a : Int, c.inCurve (c.mulPointEscalar c.Base8 a) = true
  unpack_pack : ∀ P : Point, c.inCurve P = true → c.unpackPoint (c.packPoint P) = some P

/-! ## V1: the older variant (lines 1–122 of the source file) -/

namespace V1

/-- Lines 19–26: Blake-hash the 32-byte private key, keep the low 32 bytes,
prune, and decode little-endian.  (No right shift here: V1 shifts later, in
`derivePublicKey`.) -/
def deriveSecretScalarRaw (blake : Bytes → Bytes) (k : Bytes) : Nat :=
  leBufferToBigInt (pruneBuffer ((blake k).take 32))

/-- `deriveSecretScalar` with V1's `checkPrivateKey` validation. -/
def deriveSecretScalar (blake : Bytes → Bytes) (k : Bytes) : Except Err Nat :=
  match checkPrivateKey k with
  | .error e => .error e
  | .ok k => .ok (deriveSecretScalarRaw blake k)

/-- Lines 37–44: `mulPointEscalar(Base8, scalar.shiftRight(s, 3))` applied to
V1's (unshifted) secret scalar. -/
def derivePublicKey (c : Curve) (blake : Bytes → Bytes) (k : Bytes) : Except Err Point :=
  match deriveSecretScalar blake k with
  | .error e => .error e
  | .ok s => .ok (c.mulPointEscalar c.Base8 ((shiftRight s 3 : Nat) : Int))

/-- Lines 60–81: the signing pipeline on validated inputs. -/
def signMessageRaw (c : Curve) (blake : Bytes → Bytes)
    (pose : Nat → Nat → Nat → Nat → Nat → Nat) (k : Bytes) (m : Nat) : Signature :=
  let hash := blake k
  let s := leBufferToBigInt (pruneBuffer (hash.take 32))
  let A := c.mulPointEscalar c.Base8 ((shiftRight s 3 : Nat) : Int)
  let msgBuff := leInt2Buff m
  let rBuff := blake ((hash.drop 32).take 32 ++ msgBuff)
  let r := Fe c.subOrder (leBufferToBigInt rBuff)
  let R8 := c.mulPointEscalar c.Base8 (r : Int)
  let hm := pose R8.1 R8.2 A.1 A.2 m
  let S := Fadd c.subOrder r (Fmul c.subOrder hm s)
  ⟨R8, (S : Int)⟩

/-- Lines 53–82: `signMessage` with input validation. -/
def signMessage (c : Curve) (blake : Bytes → Bytes)
    (pose : Nat → Nat → Nat → Nat → Nat → Nat) (k : Bytes) (m : Nat) :
    Except Err Signature :=
  match checkPrivateKey k with
  | .error e => .error e
  | .ok k =>
    match checkMessage m with
    | .error e => .error e
    | .ok m => .ok (signMessageRaw c blake pose k m)

/-- Lines 91–122: verification.  The structural/range guard short-circuits to
`false`; the message is normalized only afterwards, so a failing
`checkMessage` propagates as an error. -/
def verifySignature (c : Curve) (pose : Nat → Nat → Nat → Nat → Nat → Nat)
    (m : Nat) (sig : Signature) (pk : Point) : Except Err Bool :=
  if !isPoint pk || !isSignature sig || !c.inCurve sig.R8 || !c.inCurve pk
      || decide ((c.subOrder : Int) ≤ sig.S) then
    .ok false
  else
    match checkMessage m with
    | .error e => .error e
    | .ok m =>
      let hm := pose sig.R8.1 sig.R8.2 pk.1 pk.2 m
      let pLeft := c.mulPointEscalar c.Base8 sig.S
      let pRight := c.addPoint sig.R8 (c.mulPointEscalar pk ((hm * 8 : Nat) : Int))
      .ok (Feq pLeft.1 pRight.1 && Feq pLeft.2 pRight.2)

end V1

/-! ## V2: the newer variant (lines 123–351 of the source file) -/

namespace V2

/-- Lines 159–169: Blake-hash the private key, keep the low 32 bytes, prune,
decode little-endian, and right-shift by 3 bits. -/
def deriveSecretScalarRaw (blake : Bytes → Bytes) (k : Bytes) : Nat :=
  shiftRight (leBufferToBigInt (pruneBuffer ((blake k).take 32))) 3

/-- `deriveSecretScalar` with V2's `checkPrivateKey` validation. -/
def deriveSecretScalar (blake : Bytes → Bytes) (k : Bytes) : Except Err Nat :=
  match checkPrivateKey k with
  | .error e => .error e
  | .ok k => .ok (deriveSecretScalarRaw blake k)

/-- Lines 180–187: `mulPointEscalar(Base8, BigInt(s))` on V2's (already
shifted) secret scalar — no further shift is applied. -/
def derivePublicKey (c : Curve) (blake : Bytes → Bytes) (k : Bytes) : Except Err Point :=
  match deriveSecretScalar blake k with
  | .error e => .error e
  | .ok s => .ok (c.mulPointEscalar c.Base8 (s : Int))

/-- Line 207: the public point `A` recomputed inside `signMessage` from the
in-scope unshifted scalar `s`:`mulPointEscalar(Base8, scalar.shiftRight(s, 3))`. -/
def signA (c : Curve) (s : Nat) : Point :=
  c.mulPointEscalar c.Base8 ((shiftRight s 3 : Nat) : Int)

/-- Lines 203–224: the signing pipeline on validated inputs. -/
def signMessageRaw (c : Curve) (blake : Bytes → Bytes)
    (pose : Nat → Nat → Nat → Nat → Nat → Nat) (k : Bytes) (m : Nat) : Signature :=
  let hash := blake k
  let s := leBufferToBigInt (pruneBuffer (hash.take 32))
  let A := signA c s
  let msgBuff := leBigIntToBuffer m 32
  let rBuff := blake ((hash.drop 32).take 32 ++ msgBuff)
  let r := Fe c.subOrder (leBufferToBigInt rBuff)
  let R8 := c.mulPointEscalar c.Base8 (r : Int)
  let hm := pose R8.1 R8.2 A.1 A.2 m
  let S := Fadd c.subOrder r (Fmul c.subOrder hm s)
  ⟨R8, (S : Int)⟩

/-- Lines 196–225: `signMessage` with input validation. -/
def signMessage (c : Curve) (blake : Bytes → Bytes)
    (pose : Nat → Nat → Nat → Nat → Nat → Nat) (k : Bytes) (m : Nat) :
    Except Err Signature :=
  match checkPrivateKey k with
  | .error e => .error e
  | .ok k =>
    match checkMessage m with
    | .error e => .error e
    | .ok m => .ok (signMessageRaw c blake pose k m)

/-- Lines 234–265: verification.  The structural/range guard short-circuits
to `false`; the message is normalized only afterwards, so a failing
`checkMessage` propagates as an error. -/
def verifySignature (c : Curve) (pose : Nat → Nat → Nat → Nat → Nat → Nat)
    (m : Nat) (sig : Signature) (pk : Point) : Except Err Bool :=
  if !isPoint pk || !isSignature sig || !c.inCurve sig.R8 || !c.inCurve pk
      || decide ((c.subOrder : Int) ≤ sig.S) then
    .ok false
  else
    match checkMessage m with
    | .error e => .error e
    | .ok m =>
      let hm := pose sig.R8.1 sig.R8.2 pk.1 pk.2 m
      let pLeft := c.mulPointEscalar c.Base8 sig.S
      let pRight := c.addPoint sig.R8 (c.mulPointEscalar pk ((hm * 8 : Nat) : Int))
      .ok (Feq pLeft.1 pRight.1 && Feq pLeft.2 pRight.2)

/-- Lines 273–282: validate the point and delegate to the compressed codec. -/
def packPublicKey (c : Curve) (pk : Point) : Except Err Nat :=
  if isPoint pk = true ∧ c.inCurve pk = true then .ok (c.packPoint pk)
  else .error .invalidPublicKey

/-- Lines 290–306: decode a packed key; `null` from the codec becomes an
`InvalidPublicKey` error.  (The numeric input type makes the source's
bigint/string type guard always pass.) -/
def unpackPublicKey (c : Curve) (x : Nat) : Except Err Point :=
  match c.unpackPoint x with
  | none => .error .invalidPublicKey
  | some pt => .ok pt

end V2

/-! ## Concrete witness material -/

/-- A Blake model with the shape the spec demands: 64-byte digests. -/
def BlakeValid (blake : Bytes → Bytes) : Prop :=
  ∀ b, (blake b).length = 64 ∧ ∀ x ∈ blake b, x < 256

/-- A concrete hash instance for witnesses: the constant all-zero digest. -/
def blakeZ : Bytes → Bytes := fun _ => List.replicate 64 0

/-- A concrete Poseidon instance for witnesses: constantly zero. -/
def poseZ : Nat → Nat → Nat → Nat → Nat → Nat := fun _ _ _ _ _ => 0

/-- A concrete all-zero 32-byte private key for witnesses. -/
def keyZ : Bytes := List.replicate 32 0

/-- A concrete instance of the §6 curve contract for witnesses: the cyclic
group of order `so`, with `x • Base8` represented as the point `(x % so, 1)`
and the identity at `(0, 1)`. -/
def cyc : Curve where
  addPoint := fun P Q => ((P.1 + Q.1) % so, 1)
  mulPointEscalar := fun P e => ((e * (P.1 : Int) % (so : Int)).toNat, 1)
  inCurve := fun P => decide (P.1 < so ∧ P.2 = 1)
  packPoint := fun P => Nat.pair P.1 P.2
  unpackPoint := fun x => some (Nat.unpair x)
  Base8 := (1, 1)
  subOrder := so

/-- The C4 claim's description of pruning, stated independently with bitwise
masks: clear the lowest 3 bits of the first byte (`& 0xf8`), clear the top
bit and set the second-highest bit of the last byte (`& 0x7f`, `| 0x40`). -/
def specPruneBuffer (b : Bytes) : Bytes :=
  (b.set 0 ((b.getD 0 0) &&& 248)).set 31 (((b.getD 31 0) &&& 127) ||| 64)

/-- The C4 claim's description of the secret-scalar computation: hash the
private key to a 64-byte digest, prune its low 32 bytes bitwise, interpret
them as a little-endian integer, and right-shift by 3 bits (divide by 8). -/
def specSecretScalar (blake : Bytes → Bytes) (k : Bytes) : Nat :=
  leBufferToBigInt (specPruneBuffer ((blake k).take 32)) / 8

/-! ## Helper lemmas -/

theorem so_pos : 0 < so := by decide

theorem soI_pos : (0 : Int) < (so : Int) := by exact_mod_cast so_pos

theorem toNat_mod_so (x : Int) (hx : 0 ≤ x) : x.toNat % so = (x % (so : Int)).toNat := by
  have h2 : (0 : Int) ≤ x % (so : Int) := Int.emod_nonneg x (ne_of_gt soI_pos)
  have : ((x.toNat % so : Nat) : Int) = (((x % (so : Int)).toNat : Nat) : Int) := by
    calc ((x.toNat % so : Nat) : Int) = (x.toNat : Int) % (so : Int) := by push_cast; ring_nf
    _ = x % (so : Int) := by rw [Int.toNat_of_nonneg hx]
    _ = ((x % (so : Int)).toNat : Int) := (Int.toNat_of_nonneg h2).symm
  exact_mod_cast this

theorem cyc_valid : cyc.Valid := by
  constructor
  · exact so_pos
  · intro a b
    show ((((a + b) * ((1 : Nat) : Int)) % (so : Int)).toNat, 1) =
      ((((a * ((1 : Nat) : Int)) % (so : Int)).toNat + ((b * ((1 : Nat) : Int)) % (so : Int)).toNat) % so, 1)
    have ha : (0 : Int) ≤ a % (so : Int) := Int.emod_nonneg a (ne_of_gt soI_pos)
    have hb : (0 : Int) ≤ b % (so : Int) := Int.emod_nonneg b (ne_of_gt soI_pos)
    simp only [Nat.cast_one, mul_one, Prod.mk.injEq, and_true]
    rw [← Int.toNat_add ha hb, toNat_mod_so _ (by positivity), ← Int.add_emod]
  · intro k e
    show (((e * (((k * ((1 : Nat) : Int)) % (so : Int)).toNat : Int)) % (so : Int)).toNat, 1) =
      (((k * e * ((1 : Nat) : Int)) % (so : Int)).toNat, 1)
    have hk : (0 : Int) ≤ k % (so : Int) := Int.emod_nonneg k (ne_of_gt soI_pos)
    simp only [Nat.cast_one, mul_one, Prod.mk.injEq, and_true]
    rw [Int.toNat_of_nonneg hk, Int.mul_emod, Int.emod_emod_of_dvd _ dvd_rfl, ← Int.mul_emod,
      mul_comm e k]
  · intro a
    show (((a % (so : Int)) * ((1 : Nat) : Int) % (so : Int)).toNat, 1) =
      ((a * ((1 : Nat) : Int) % (so : Int)).toNat, 1)
    simp only [Nat.cast_one, mul_one, Prod.mk.injEq, and_true]
    rw [Int.emod_emod_of_dvd _ dvd_rfl]
  · intro a
    show decide (((a * ((1 : Nat) : Int)) % (so : Int)).toNat < so ∧ (1 : Nat) = 1) = true
    have h1 : (0 : Int) ≤ a * ((1 : Nat) : Int) % (so : Int) :=
      Int.emod_nonneg _ (ne_of_gt soI_pos)
    have h2 : a * ((1 : Nat) : Int) % (so : Int) < (so : Int) :=
      Int.emod_lt_of_pos _ soI_pos
    simp only [decide_eq_true_eq, and_true]
    omega
  · intro P _
    show some (Nat.unpair (Nat.pair P.1 P.2)) = some P
    simp [Nat.unpair_pair]

theorem blakeZ_valid : BlakeValid blakeZ := by
  intro b
  refine ⟨by simp [blakeZ], ?_⟩
  intro x hx
  have := List.eq_of_mem_replicate hx
  omega

/-- The pruned buffer always decodes to a multiple of 8: the lowest 3 bits of
the first (least-significant) byte are cleared. -/
theorem prune_mod8 (l : Bytes) : leBufferToBigInt (pruneBuffer l) % 8 = 0 := by
  cases l with
  | nil => rfl
  | cons b0 t =>
    obtain ⟨u, hu⟩ : ∃ u, pruneBuffer (b0 :: t) = clearLow3 b0 :: u := by
      cases t with
      | nil => exact ⟨[], rfl⟩
      | cons b1 t => exact ⟨(b1 :: t).set 30 (pruneLast ((b0 :: b1 :: t).getD 31 0)), rfl⟩
    rw [hu]
    show (clearLow3 b0 + 256 * leBufferToBigInt u) % 8 = 0
    unfold clearLow3
    omega

theorem leB_append (xs ys : Bytes) :
    leBufferToBigInt (xs ++ ys) = leBufferToBigInt xs + 256 ^ xs.length * leBufferToBigInt ys := by
  induction xs with
  | nil => simp [leBufferToBigInt]
  | cons b t ih =>
    show b + 256 * leBufferToBigInt (t ++ ys) = _
    rw [ih, List.length_cons, pow_succ]
    show _ = b + 256 * leBufferToBigInt t + 256 ^ t.length * 256 * leBufferToBigInt ys
    ring

theorem leB_lt (l : Bytes) (h : ∀ x ∈ l, x < 256) :
    leBufferToBigInt l < 256 ^ l.length := by
  induction l with
  | nil => simp [leBufferToBigInt]
  | cons b t ih =>
    have hb : b < 256 := h b (List.mem_cons_self b t)
    have ht : leBufferToBigInt t < 256 ^ t.length :=
      ih fun x hx => h x (List.mem_cons_of_mem _ hx)
    simp only [leBufferToBigInt, List.length_cons, pow_succ]
    calc b + 256 * leBufferToBigInt t < 256 + 256 * leBufferToBigInt t := by omega
    _ = 256 * (leBufferToBigInt t + 1) := by ring
    _ ≤ 256 * 256 ^ t.length := by
        exact Nat.mul_le_mul_left _ (by omega)
    _ = 256 ^ t.length * 256 := by ring

theorem set_len_append (m : Bytes) (y z : Nat) :
    (m ++ [y]).set m.length z = m ++ [z] := by
  induction m with
  | nil => rfl
  | cons a t ih => simp [List.set, ih]

theorem getD_len_append (m : Bytes) (y : Nat) :
    (m ++ [y]).getD m.length 0 = y := by
  induction m with
  | nil => rfl
  | cons a t ih => simp [List.getD]

/-- Arithmetic characterization of pruning a 32-byte buffer (spec §4.1): the
little-endian value of the pruned buffer is the original value reduced mod
`2 ^ 254`, with the low 3 bits cleared and bit 254 set. -/
theorem pruned_eq (l : Bytes) (h32 : l.length = 32) (hb : ∀ x ∈ l, x < 256) :
    leBufferToBigInt (pruneBuffer l) =
      2 ^ 254 + leBufferToBigInt l % 2 ^ 254 / 8 * 8 := by
  cases l with
  | nil => simp at h32
  | cons b0 t =>
    have ht31 : t.length = 31 := by simpa using h32
    have htne : t ≠ [] := by intro h; rw [h] at ht31; simp at ht31
    obtain ⟨m, y, hdec, hm30⟩ : ∃ m y, m ++ [y] = t ∧ m.length = 30 := by
      refine ⟨t.dropLast, t.getLast htne, List.dropLast_append_getLast htne, ?_⟩
      rw [List.length_dropLast, ht31]
    subst hdec
    have hset : pruneBuffer (b0 :: (m ++ [y])) = clearLow3 b0 :: (m ++ [pruneLast y]) := by
      show ((b0 :: (m ++ [y])).set 0 (clearLow3 ((b0 :: (m ++ [y])).getD 0 0))).set 31
          (pruneLast ((b0 :: (m ++ [y])).getD 31 0)) = _
      have hg0 : (b0 :: (m ++ [y])).getD 0 0 = b0 := rfl
      have hg31 : (b0 :: (m ++ [y])).getD 31 0 = y := by
        show (m ++ [y]).getD 30 0 = y
        rw [← hm30]; exact getD_len_append m y
      rw [hg0, hg31]
      show clearLow3 b0 :: (m ++ [y]).set 30 (pruneLast y) = _
      rw [← hm30, set_len_append]
    rw [hset]
    have hM : leBufferToBigInt m < 256 ^ 30 := by
      rw [← hm30]
      refine leB_lt m fun x hx => hb x ?_
      exact List.mem_cons_of_mem _ (List.mem_append_left _ hx)
    have hb0 : b0 < 256 := hb b0 (List.mem_cons_self _ _)
    have hy : y < 256 := hb y
      (List.mem_cons_of_mem _ (List.mem_append_right _ (List.mem_singleton.mpr rfl)))
    have e1 : leBufferToBigInt (clearLow3 b0 :: (m ++ [pruneLast y])) =
        clearLow3 b0 + 256 * (leBufferToBigInt m + 256 ^ 30 * pruneLast y) := by
      show clearLow3 b0 + 256 * leBufferToBigInt (m ++ [pruneLast y]) = _
      rw [leB_append, hm30]
      show clearLow3 b0 + 256 * (leBufferToBigInt m + 256 ^ 30 * (pruneLast y + 256 * 0)) = _
      ring
    have e2 : leBufferToBigInt (b0 :: (m ++ [y])) =
        b0 + 256 * (leBufferToBigInt m + 256 ^ 30 * y) := by
      show b0 + 256 * leBufferToBigInt (m ++ [y]) = _
      rw [leB_append, hm30]
      show b0 + 256 * (leBufferToBigInt m + 256 ^ 30 * (y + 256 * 0)) = _
      ring
    rw [e1, e2]
    unfold clearLow3 pruneLast
    have h2240 : (256 : Nat) ^ 30 = 2 ^ 240 := by norm_num
    rw [h2240]
    set M := leBufferToBigInt m with hMdef
    rw [h2240] at hM
    omega

theorem checkMessage_lt {m : Nat} (h : checkMessage m = .ok m) : m < p := by
  by_contra hc
  simp [checkMessage, hc] at h

set_option maxRecDepth 4096 in
theorem byte_and248 : ∀ x, x < 256 → x &&& 248 = x / 8 * 8 := by decide

set_option maxRecDepth 4096 in
theorem byte_and127_or64 : ∀ x, x < 256 → (x &&& 127) ||| 64 = x % 64 + 64 := by decide

theorem getD_lt_256 (b : Bytes) (i : Nat) (hb : ∀ x ∈ b, x < 256) : b.getD i 0 < 256 := by
  by_cases h : i < b.length
  · rw [List.getD_eq_getElem b 0 h]
    exact hb _ (List.getElem_mem h)
  · rw [List.getD_eq_default b 0 (by omega)]
    omega

/-- On byte buffers, the claim's bitwise pruning agrees with the source's
arithmetic pruning model. -/
theorem specPrune_eq (b : Bytes) (hb : ∀ x ∈ b, x < 256) :
    specPruneBuffer b = pruneBuffer b := by
  unfold specPruneBuffer pruneBuffer clearLow3 pruneLast
  rw [byte_and248 _ (getD_lt_256 b 0 hb), byte_and127_or64 _ (getD_lt_256 b 31 hb)]

/-! ## Claim theorems -/

/-- C2: the spec states that `verifySignature` never throws and that a message
failing normalization yields `false`; the code normalizes the message only
after the structural guard and lets `checkMessage`'s `InvalidMessage` error
propagate.  At `message = p` (the field modulus) with a structurally valid
signature and an in-curve public key, verification produces an error rather
than `false`. -/
theorem C2_verify_error_on_invalid_message :
    V2.verifySignature cyc poseZ p ⟨(0, 1), 0⟩ (0, 1) = .error .invalidMessage := rfl

/-- C3 (amended): `verifySignature` returns `false`, without an error, for
every signature whose `S` is at least `subOrder`.  (The code performs no
lower-bound check on `S`; see the counterexample for negative `S`.) -/
theorem C3_range_reject_upper (c : Curve) (pose : Nat → Nat → Nat → Nat → Nat → Nat)
    (m : Nat) (sig : Signature) (pk : Point)
    (h : (c.subOrder : Int) ≤ sig.S) :
    V2.verifySignature c pose m sig pk = .ok false := by
  have hd : decide ((c.subOrder : Int) ≤ sig.S) = true := decide_eq_true h
  simp [V2.verifySignature, hd]

theorem C3_range_reject_upper_witness :
    V2.verifySignature cyc poseZ 0 ⟨(0, 1), (so : Int)⟩ (0, 1) = .ok false :=
  C3_range_reject_upper cyc poseZ 0 ⟨(0, 1), (so : Int)⟩ (0, 1) (by decide)

/-- C3 is false as stated: the guard checks only `S ≥ subOrder`, so a
well-formed signature with negative `S` is not rejected.  Under the modelled
curve contract (`cyc` satisfies it), the signature `{R8 = (subOrder-1)·B8,
S = -1}` for the identity public key verifies as `true` — verification does
not return `false` for this negative `S`. -/
theorem C3_counterexample :
    cyc.Valid ∧ ((⟨(so - 1, 1), -1⟩ : Signature)).S < 0 ∧
      V2.verifySignature cyc poseZ 2 ⟨(so - 1, 1), -1⟩ (0, 1) = .ok true :=
  ⟨cyc_valid, by decide, rfl⟩

/-- C8 (amended): the two variants agree on `derivePublicKey`, `signMessage`
and `verifySignature` on all inputs; `deriveSecretScalar` differs — V1
returns the unshifted pruned little-endian integer, which equals 8 times
V2's right-shifted secret scalar. -/
theorem C8_variants_agree (c : Curve) (blake : Bytes → Bytes)
    (pose : Nat → Nat → Nat → Nat → Nat → Nat) (k : Bytes) (m vm : Nat)
    (vsig : Signature) (vpk : Point) :
    V1.derivePublicKey c blake k = V2.derivePublicKey c blake k ∧
    V1.signMessage c blake pose k m = V2.signMessage c blake pose k m ∧
    V1.verifySignature c pose vm vsig vpk = V2.verifySignature c pose vm vsig vpk ∧
    V1.deriveSecretScalar blake k = (V2.deriveSecretScalar blake k).map (fun s => 8 * s) := by
  refine ⟨?_, ?_, ?_, ?_⟩
  · unfold V1.derivePublicKey V2.derivePublicKey V1.deriveSecretScalar V2.deriveSecretScalar
    cases checkPrivateKey k with
    | error e => rfl
    | ok k' => rfl
  · unfold V1.signMessage V2.signMessage
    cases checkPrivateKey k with
    | error e => rfl
    | ok k' =>
      cases checkMessage m with
      | error e => rfl
      | ok m' => rfl
  · unfold V1.verifySignature V2.verifySignature
    rfl
  · unfold V1.deriveSecretScalar V2.deriveSecretScalar
    cases checkPrivateKey k with
    | error e => rfl
    | ok k' =>
      show Except.ok (V1.deriveSecretScalarRaw blake k') =
        Except.ok (8 * V2.deriveSecretScalarRaw blake k')
      have h8 : 8 ∣ leBufferToBigInt (pruneBuffer ((blake k').take 32)) :=
        Nat.dvd_of_mod_eq_zero (prune_mod8 _)
      refine congrArg Except.ok ?_
      unfold V1.deriveSecretScalarRaw V2.deriveSecretScalarRaw shiftRight
      rw [Nat.shiftRight_eq_div_pow]
      norm_num
      exact (Nat.mul_div_cancel' h8).symm

/-- C8 is false as stated: at the all-zero key, the two variants'
`deriveSecretScalar` results differ (V1 yields `2 ^ 254`, V2 yields `2 ^ 251`). -/
theorem C8_counterexample :
    V1.deriveSecretScalar blakeZ keyZ ≠ V2.deriveSecretScalar blakeZ keyZ := by
  have h1 : V1.deriveSecretScalar blakeZ keyZ = .ok (2 ^ 254) := rfl
  have h2 : V2.deriveSecretScalar blakeZ keyZ = .ok (2 ^ 251) := rfl
  rw [h1, h2]
  intro h
  exact absurd (Except.ok.inj h) (by decide)

/-- C9: an honestly produced signature's `S` is computed in the field of
order `subOrder` (`Fadd`/`Fmul` reduce mod `subOrder`), hence satisfies
`0 ≤ S < subOrder` and passes the verifier's range guard. -/
theorem C9_sign_S_range (c : Curve) (blake : Bytes → Bytes)
    (pose : Nat → Nat → Nat → Nat → Nat → Nat) (k : Bytes) (m : Nat) (sig : Signature)
    (hso : 0 < c.subOrder) (hsig : V2.signMessage c blake pose k m = .ok sig) :
    0 ≤ sig.S ∧ sig.S < (c.subOrder : Int) := by
  unfold V2.signMessage at hsig
  cases hck : checkPrivateKey k with
  | error e => rw [hck] at hsig; exact absurd hsig (by simp)
  | ok k' =>
    rw [hck] at hsig
    cases hcm : checkMessage m with
    | error e => rw [hcm] at hsig; exact absurd hsig (by simp)
    | ok m' =>
      rw [hcm] at hsig
      have hraw : V2.signMessageRaw c blake pose k' m' = sig := Except.ok.inj hsig
      rw [← hraw]
      constructor
      · simp only [V2.signMessageRaw]
        exact Int.natCast_nonneg _
      · simp only [V2.signMessageRaw, Fadd]
        exact_mod_cast Nat.mod_lt _ hso

theorem C9_sign_S_range_witness :
    (0 : Int) ≤ (⟨(0, 1), 0⟩ : Signature).S ∧
      (⟨(0, 1), 0⟩ : Signature).S < (cyc.subOrder : Int) :=
  C9_sign_S_range cyc blakeZ poseZ keyZ 2 ⟨(0, 1), 0⟩ (by decide) rfl

/-- C4 (amended): for every valid private key, the newer variant's
`deriveSecretScalar` returns the claim's value — hash to a 64-byte digest,
bit-prune the low 32 bytes, little-endian decode, shift right by 3 — while
the older variant returns the unshifted pruned integer, i.e. 8 times that
value (its shift happens later, inside `derivePublicKey`). -/
theorem C4_secret_scalar (blake : Bytes → Bytes) (k : Bytes)
    (hb : BlakeValid blake) (hk : checkPrivateKey k = .ok k) :
    V2.deriveSecretScalar blake k = .ok (specSecretScalar blake k) ∧
    V1.deriveSecretScalar blake k = .ok (8 * specSecretScalar blake k) := by
  have hbytes : ∀ x ∈ (blake k).take 32, x < 256 := fun x hx =>
    (hb k).2 x (List.mem_of_mem_take hx)
  have hpe : specPruneBuffer ((blake k).take 32) = pruneBuffer ((blake k).take 32) :=
    specPrune_eq _ hbytes
  have h8 : 8 ∣ leBufferToBigInt (pruneBuffer ((blake k).take 32)) :=
    Nat.dvd_of_mod_eq_zero (prune_mod8 _)
  constructor
  · unfold V2.deriveSecretScalar
    rw [hk]
    show Except.ok (V2.deriveSecretScalarRaw blake k) = _
    refine congrArg Except.ok ?_
    unfold V2.deriveSecretScalarRaw specSecretScalar shiftRight
    rw [hpe, Nat.shiftRight_eq_div_pow]
  · unfold V1.deriveSecretScalar
    rw [hk]
    show Except.ok (V1.deriveSecretScalarRaw blake k) = _
    refine congrArg Except.ok ?_
    unfold V1.deriveSecretScalarRaw specSecretScalar
    rw [hpe]
    exact (Nat.mul_div_cancel' h8).symm

theorem C4_secret_scalar_witness :
    V2.deriveSecretScalar blakeZ keyZ = .ok (specSecretScalar blakeZ keyZ) ∧
      V1.deriveSecretScalar blakeZ keyZ = .ok (8 * specSecretScalar blakeZ keyZ) :=
  C4_secret_scalar blakeZ keyZ blakeZ_valid rfl

/-- C4 is false as stated for the older variant: at the all-zero key, V1's
`deriveSecretScalar` returns `2 ^ 254`, not the claim's shifted value
`2 ^ 251`. -/
theorem C4_counterexample :
    V1.deriveSecretScalar blakeZ keyZ ≠ .ok (specSecretScalar blakeZ keyZ) := by
  have h1 : V1.deriveSecretScalar blakeZ keyZ = .ok (2 ^ 254) := rfl
  have h2 : specSecretScalar blakeZ keyZ = 2 ^ 251 := rfl
  rw [h1, h2]
  intro h
  exact absurd (Except.ok.inj h) (by decide)

/-- C5: `signMessage` derives the nonce `r` by Blake-hashing the digest's
high 32 bytes concatenated with the 32-byte little-endian message encoding,
reduced mod `subOrder`; `R8 = r·B8` and `S = r + hm·s mod subOrder`. -/
theorem C5_nonce_derivation (c : Curve) (blake : Bytes → Bytes)
    (pose : Nat → Nat → Nat → Nat → Nat → Nat) (k : Bytes) (m : Nat)
    (hb : BlakeValid blake) (hk : checkPrivateKey k = .ok k)
    (hm : checkMessage m = .ok m) :
    ∃ sig, V2.signMessage c blake pose k m = .ok sig ∧
      sig.R8 = c.mulPointEscalar c.Base8
        ((leBufferToBigInt (blake ((blake k).drop 32 ++ leBigIntToBuffer m 32)) % c.subOrder
          : Nat) : Int) ∧
      sig.S = ((Fadd c.subOrder
        (leBufferToBigInt (blake ((blake k).drop 32 ++ leBigIntToBuffer m 32)) % c.subOrder)
        (Fmul c.subOrder
          (pose sig.R8.1 sig.R8.2
            (V2.signA c (leBufferToBigInt (pruneBuffer ((blake k).take 32)))).1
            (V2.signA c (leBufferToBigInt (pruneBuffer ((blake k).take 32)))).2 m)
          (leBufferToBigInt (pruneBuffer ((blake k).take 32)))) : Nat) : Int) := by
  have hdt : ((blake k).drop 32).take 32 = (blake k).drop 32 := by
    apply List.take_of_length_le
    rw [List.length_drop, (hb k).1]
  refine ⟨V2.signMessageRaw c blake pose k m, ?_, ?_, ?_⟩
  · unfold V2.signMessage
    rw [hk, hm]
  · simp only [V2.signMessageRaw, Fe]
    rw [hdt]
  · simp only [V2.signMessageRaw, Fe]
    rw [hdt]

theorem C5_nonce_derivation_witness :
    ∃ sig, V2.signMessage cyc blakeZ poseZ keyZ 2 = .ok sig ∧
      sig.R8 = cyc.mulPointEscalar cyc.Base8
        ((leBufferToBigInt (blakeZ ((blakeZ keyZ).drop 32 ++ leBigIntToBuffer 2 32)) % cyc.subOrder
          : Nat) : Int) ∧
      sig.S = ((Fadd cyc.subOrder
        (leBufferToBigInt (blakeZ ((blakeZ keyZ).drop 32 ++ leBigIntToBuffer 2 32)) % cyc.subOrder)
        (Fmul cyc.subOrder
          (poseZ sig.R8.1 sig.R8.2
            (V2.signA cyc (leBufferToBigInt (pruneBuffer ((blakeZ keyZ).take 32)))).1
            (V2.signA cyc (leBufferToBigInt (pruneBuffer ((blakeZ keyZ).take 32)))).2 2)
          (leBufferToBigInt (pruneBuffer ((blakeZ keyZ).take 32)))) : Nat) : Int) :=
  C5_nonce_derivation cyc blakeZ poseZ keyZ 2 blakeZ_valid rfl rfl

/-- C6: the public point `A` recomputed inside `signMessage` (from the
unshifted scalar `s`, line 207) equals `derivePublicKey`'s output, which
applies no further shift to the already-shifted secret scalar. -/
theorem C6_derivation_stability (c : Curve) (blake : Bytes → Bytes) (k : Bytes)
    (hk : checkPrivateKey k = .ok k) :
    V2.derivePublicKey c blake k =
      .ok (V2.signA c (leBufferToBigInt (pruneBuffer ((blake k).take 32)))) := by
  unfold V2.derivePublicKey V2.deriveSecretScalar
  rw [hk]
  rfl

theorem C6_derivation_stability_witness :
    V2.derivePublicKey cyc blakeZ keyZ =
      .ok (V2.signA cyc (leBufferToBigInt (pruneBuffer ((blakeZ keyZ).take 32)))) :=
  C6_derivation_stability cyc blakeZ keyZ rfl

/-- C7: under the codec contract, packing an in-curve point and unpacking it
returns the same point; packing anything not in-curve fails with
`InvalidPublicKey`. -/
theorem C7_pack_unpack (c : Curve) (hc : c.Valid) :
    (∀ P : Point, c.inCurve P = true →
      ∃ n, V2.packPublicKey c P = .ok n ∧ V2.unpackPublicKey c n = .ok P) ∧
    (∀ P : Point, c.inCurve P ≠ true →
      V2.packPublicKey c P = .error .invalidPublicKey) := by
  constructor
  · intro P hP
    refine ⟨c.packPoint P, ?_, ?_⟩
    · unfold V2.packPublicKey
      rw [if_pos ⟨rfl, hP⟩]
    · unfold V2.unpackPublicKey
      rw [hc.unpack_pack P hP]
  · intro P hP
    unfold V2.packPublicKey
    rw [if_neg fun h => hP h.2]

theorem C7_pack_unpack_witness :
    (∃ n, V2.packPublicKey cyc (3, 1) = .ok n ∧ V2.unpackPublicKey cyc n = .ok (3, 1)) ∧
      V2.packPublicKey cyc (0, 2) = .error .invalidPublicKey :=
  ⟨(C7_pack_unpack cyc cyc_valid).1 (3, 1) (by decide),
   (C7_pack_unpack cyc cyc_valid).2 (0, 2) (by decide)⟩

/-- C10: for a valid private key, the circuit-facing (shifted) secret scalar
lies in `[2^251, 2^252)`, and the pre-shift pruned integer lies in
`[2^254, 2^255)` and is a multiple of 8. -/
theorem C10_scalar_range (blake : Bytes → Bytes) (k : Bytes)
    (hb : BlakeValid blake) (_hk : checkPrivateKey k = .ok k) :
    2 ^ 251 ≤ V2.deriveSecretScalarRaw blake k ∧
    V2.deriveSecretScalarRaw blake k < 2 ^ 252 ∧
    2 ^ 254 ≤ V1.deriveSecretScalarRaw blake k ∧
    V1.deriveSecretScalarRaw blake k < 2 ^ 255 ∧
    V1.deriveSecretScalarRaw blake k % 8 = 0 := by
  have hlen : ((blake k).take 32).length = 32 := by
    rw [List.length_take, (hb k).1]
    omega
  have hbytes : ∀ x ∈ (blake k).take 32, x < 256 := fun x hx =>
    (hb k).2 x (List.mem_of_mem_take hx)
  have hz := pruned_eq _ hlen hbytes
  have hlt : leBufferToBigInt ((blake k).take 32) % 2 ^ 254 < 2 ^ 254 :=
    Nat.mod_lt _ (by positivity)
  have hv2 : V2.deriveSecretScalarRaw blake k =
      (2 ^ 254 + leBufferToBigInt ((blake k).take 32) % 2 ^ 254 / 8 * 8) / 2 ^ 3 := by
    unfold V2.deriveSecretScalarRaw shiftRight
    rw [Nat.shiftRight_eq_div_pow, hz]
  have hv1 : V1.deriveSecretScalarRaw blake k =
      2 ^ 254 + leBufferToBigInt ((blake k).take 32) % 2 ^ 254 / 8 * 8 := by
    unfold V1.deriveSecretScalarRaw
    exact hz
  rw [hv1, hv2]
  omega

theorem C10_scalar_range_witness :
    2 ^ 251 ≤ V2.deriveSecretScalarRaw blakeZ keyZ ∧
      V2.deriveSecretScalarRaw blakeZ keyZ < 2 ^ 252 ∧
      2 ^ 254 ≤ V1.deriveSecretScalarRaw blakeZ keyZ ∧
      V1.deriveSecretScalarRaw blakeZ keyZ < 2 ^ 255 ∧
      V1.deriveSecretScalarRaw blakeZ keyZ % 8 = 0 :=
  C10_scalar_range blakeZ keyZ blakeZ_valid rfl

/-- The verification equation holds for honestly computed components: with a
pruned (cofactor-aligned) `s`, `(r + hm·s mod n)·B8 = r·B8 + (8·hm)·((s≫3)·B8)`. -/
theorem verify_equation (c : Curve) (hc : c.Valid) (rr hmv s : Nat) (h8 : s % 8 = 0) :
    c.mulPointEscalar c.Base8 ((Fadd c.subOrder rr (Fmul c.subOrder hmv s) : Nat) : Int) =
      c.addPoint (c.mulPointEscalar c.Base8 ((rr : Nat) : Int))
        (c.mulPointEscalar (c.mulPointEscalar c.Base8 ((shiftRight s 3 : Nat) : Int))
          ((hmv * 8 : Nat) : Int)) := by
  have hcast : ∀ a : Nat, ((a % c.subOrder : Nat) : Int) = ((a : Nat) : Int) % ((c.subOrder : Nat) : Int) := by
    intro a
    push_cast
    ring_nf
  unfold Fadd Fmul shiftRight
  rw [Nat.shiftRight_eq_div_pow]
  have e1 : c.mulPointEscalar c.Base8 (((rr + hmv * s % c.subOrder) % c.subOrder : Nat) : Int)
      = c.mulPointEscalar c.Base8 ((rr + hmv * s % c.subOrder : Nat) : Int) := by
    rw [hcast]
    exact hc.mul_base_mod _
  rw [e1]
  have e2 : ((rr + hmv * s % c.subOrder : Nat) : Int)
      = ((rr : Nat) : Int) + ((hmv * s % c.subOrder : Nat) : Int) := by push_cast; ring_nf
  rw [e2, hc.mul_base_add]
  congr 1
  rw [hcast, hc.mul_base_mod, hc.mul_mul]
  congr 1
  have hnat : hmv * s = s / 2 ^ 3 * (hmv * 8) := by
    rw [show s / 2 ^ 3 * (hmv * 8) = hmv * (s / 8 * 8) by ring,
      Nat.div_mul_cancel (Nat.dvd_of_mod_eq_zero h8)]
  exact_mod_cast congrArg (fun n : Nat => (n : Int)) hnat

/-- Unfolding of `verifySignature` when every guard passes and the message is
valid. -/
theorem verify_unfold_checked (c : Curve) (pose : Nat → Nat → Nat → Nat → Nat → Nat)
    (m : Nat) (sig : Signature) (pk : Point)
    (hg1 : c.inCurve sig.R8 = true) (hg2 : c.inCurve pk = true)
    (hg3 : decide ((c.subOrder : Int) ≤ sig.S) = false)
    (hcm : checkMessage m = .ok m) :
    V2.verifySignature c pose m sig pk = .ok
      (Feq (c.mulPointEscalar c.Base8 sig.S).1
          (c.addPoint sig.R8 (c.mulPointEscalar pk
            ((pose sig.R8.1 sig.R8.2 pk.1 pk.2 m * 8 : Nat) : Int))).1 &&
        Feq (c.mulPointEscalar c.Base8 sig.S).2
          (c.addPoint sig.R8 (c.mulPointEscalar pk
            ((pose sig.R8.1 sig.R8.2 pk.1 pk.2 m * 8 : Nat) : Int))).2) := by
  unfold V2.verifySignature
  rw [hg1, hg2, hg3, hcm]
  simp [isPoint, isSignature]

theorem verify_raw_ok (c : Curve) (blake : Bytes → Bytes)
    (pose : Nat → Nat → Nat → Nat → Nat → Nat) (k : Bytes) (m : Nat)
    (hc : c.Valid) (hmp : m < p) :
    V2.verifySignature c pose m (V2.signMessageRaw c blake pose k m)
      (c.mulPointEscalar c.Base8 ((V2.deriveSecretScalarRaw blake k : Nat) : Int)) =
      .ok true := by
  set PK := c.mulPointEscalar c.Base8 ((V2.deriveSecretScalarRaw blake k : Nat) : Int) with hPK
  set SIG := V2.signMessageRaw c blake pose k m with hSIG
  set hmv := pose SIG.R8.1 SIG.R8.2 PK.1 PK.2 m with hhmv
  have hR8 : SIG.R8 = c.mulPointEscalar c.Base8
      ((Fe c.subOrder (leBufferToBigInt
        (blake (((blake k).drop 32).take 32 ++ leBigIntToBuffer m 32))) : Nat) : Int) := rfl
  have hSv : SIG.S = ((Fadd c.subOrder
      (Fe c.subOrder (leBufferToBigInt
        (blake (((blake k).drop 32).take 32 ++ leBigIntToBuffer m 32))))
      (Fmul c.subOrder hmv
        (leBufferToBigInt (pruneBuffer ((blake k).take 32)))) : Nat) : Int) := rfl
  have hso := hc.subOrder_pos
  have hc1 : c.inCurve SIG.R8 = true := by rw [hR8]; exact hc.inCurve_mul_base _
  have hc2 : c.inCurve PK = true := by rw [hPK]; exact hc.inCurve_mul_base _
  have hc3 : decide ((c.subOrder : Int) ≤ SIG.S) = false := by
    rw [hSv]
    apply decide_eq_false
    rw [not_le]
    show ((Fadd _ _ _ : Nat) : Int) < _
    unfold Fadd
    exact_mod_cast Nat.mod_lt _ hso
  have hcm : checkMessage m = .ok m := by unfold checkMessage; rw [if_pos hmp]
  rw [verify_unfold_checked c pose m SIG PK hc1 hc2 hc3 hcm]
  have hkey : c.mulPointEscalar c.Base8 SIG.S =
      c.addPoint SIG.R8 (c.mulPointEscalar PK
        ((pose SIG.R8.1 SIG.R8.2 PK.1 PK.2 m * 8 : Nat) : Int)) := by
    rw [← hhmv, hSv, hR8, hPK]
    show _ = c.addPoint _ (c.mulPointEscalar (c.mulPointEscalar c.Base8
      ((shiftRight (leBufferToBigInt (pruneBuffer ((blake k).take 32))) 3 : Nat) : Int)) _)
    exact verify_equation c hc
      (Fe c.subOrder (leBufferToBigInt
        (blake (((blake k).drop 32).take 32 ++ leBigIntToBuffer m 32))))
      hmv (leBufferToBigInt (pruneBuffer ((blake k).take 32))) (prune_mod8 _)
  rw [hkey]
  simp [Feq]

/-- C1: round-trip validity — for every private key accepted by
`checkPrivateKey` and message accepted by `checkMessage`, verifying an
honestly produced signature against the derived public key succeeds, for any
curve satisfying the §6 contract and any Blake/Poseidon instances. -/
theorem C1_sign_verify_roundtrip (c : Curve) (blake : Bytes → Bytes)
    (pose : Nat → Nat → Nat → Nat → Nat → Nat) (k : Bytes) (m : Nat)
    (hc : c.Valid) (hk : checkPrivateKey k = .ok k) (hm : checkMessage m = .ok m) :
    ∃ sig pk, V2.signMessage c blake pose k m = .ok sig ∧
      V2.derivePublicKey c blake k = .ok pk ∧
      V2.verifySignature c pose m sig pk = .ok true := by
  refine ⟨V2.signMessageRaw c blake pose k m,
    c.mulPointEscalar c.Base8 ((V2.deriveSecretScalarRaw blake k : Nat) : Int), ?_, ?_, ?_⟩
  · unfold V2.signMessage
    rw [hk, hm]
  · unfold V2.derivePublicKey V2.deriveSecretScalar
    rw [hk]
  · exact verify_raw_ok c blake pose k m hc (checkMessage_lt hm)

theorem C1_sign_verify_roundtrip_witness :
    ∃ sig pk, V2.signMessage cyc blakeZ poseZ keyZ 2 = .ok sig ∧
      V2.derivePublicKey cyc blakeZ keyZ = .ok pk ∧
      V2.verifySignature cyc poseZ 2 sig pk = .ok true :=
  C1_sign_verify_roundtrip cyc blakeZ poseZ keyZ 2 cyc_valid rfl rfl

end EddsaPoseidon
